import Mathlib

/-!
Verification of the nondeterministic Turing-machine interpreter
(`src/interpreter.py`) against its natural-language specification.

The Python source is shallowly embedded: Python `int` becomes `Int`,
Python strings become `String`, Python lists become `List`, and fallible
operations (list indexing, which can raise `IndexError`, and the
function-local variables `accepts` / `rejects` of `Machine.run`, which
can be unbound) surface as `Option`.  Mutable state (`self._tape`,
`self._head`, `self._state`, `self._states_visited`) is passed
explicitly.  A second, heap-level model of `MachineState` near the end
of the definitions makes the aliasing behaviour of `MachineState.copy`
expressible.
-/

abbrev Letter := String
abbrev State := String
abbrev Direction := String

def BLANK : Letter := "0"

def STATE_INIT : State := "start"

def STATE_ACCEPT : State := "accept"

def STATE_REJECT : State := "reject"

def DIRECTION_LEFT : Direction := "L"

def DIRECTION_RIGHT : Direction := "R"

def DIRECTION_STAY : Direction := "S"

/-- Dataclass `Transition` (interpreter.py lines 21-27), field order as in the source. -/
structure Transition where
  state_current : State
  letter_current : Letter
  state_target : State
  letter_to_write : Letter
  direction : Direction
deriving DecidableEq

/-- Dataclass `Position` (lines 29-32). -/
structure Position where
  state : State
  letter : Letter
deriving DecidableEq

/-- Dataclass `Move` (lines 34-38), field order as in the source. -/
structure Move where
  letter_to_write : Letter
  direction : Direction
  state_target : State
deriving DecidableEq

/-- Inner dict `{Letter: [Move]}` of `MachineDefinition._definition`,
as an insertion-ordered association list (Python dicts preserve insertion order). -/
abbrev LetterMoves := List (Letter × List Move)

/-- The dict `_definition: {State: {Letter: [Move]}}` built by
`MachineDefinition._parse_transitions` (line 47). -/
abbrev MachineDefinition := List (State × LetterMoves)

/-- Python dict lookup `self._definition[state]`; `none` models `KeyError`. -/
def findState : MachineDefinition → State → Option LetterMoves
  | [], _ => none
  | (s', lm) :: rest, s => if s' = s then some lm else findState rest s

/-- Python dict lookup `self._definition[state][letter]`; `none` models `KeyError`. -/
def findLetter : LetterMoves → Letter → Option (List Move)
  | [], _ => none
  | (l', ms) :: rest, l => if l' = l then some ms else findLetter rest l

/-- Inner part of `_parse_transitions` (lines 51-53): create
`dict[state][letter]` as `[]` if missing, then append the move. -/
def addMoveInner : LetterMoves → Letter → Move → LetterMoves
  | [], l, mv => [(l, [mv])]
  | (l', ms) :: rest, l, mv =>
    if l' = l then (l', ms ++ [mv]) :: rest else (l', ms) :: addMoveInner rest l mv

/-- Outer part of `_parse_transitions` (lines 49-53): create
`dict[state]` as `{}` if missing, then update the inner dict. -/
def addMove : MachineDefinition → State → Letter → Move → MachineDefinition
  | [], s, l, mv => [(s, [(l, [mv])])]
  | (s', lm) :: rest, s, l, mv =>
    if s' = s then (s', addMoveInner lm l mv) :: rest else (s', lm) :: addMove rest s l mv

/-- The loop of `MachineDefinition._parse_transitions` (lines 46-53):
builds the nested dict from the transition list, left to right. -/
def parse_transitions (ts : List Transition) : MachineDefinition :=
  ts.foldl
    (fun d t => addMove d t.state_current t.letter_current
      ⟨t.letter_to_write, t.direction, t.state_target⟩) []

/-- Method `MachineDefinition.evaluate_moves` (lines 55-59):
`return self._definition[pos.state][pos.letter]`, with `except KeyError: return None`. -/
def evaluate_moves (d : MachineDefinition) (pos : Position) : Option (List Move) :=
  match findState d pos.state with
  | none => none
  | some lm => findLetter lm pos.letter

/-- Class `MachineState` (lines 62-101): fields `_tape`, `_head`, `_state`.
Python `int` is modelled by `Int`. -/
structure MachineState where
  tape : List Letter
  head : Int
  state : State
deriving DecidableEq

/-- Python list read `l[i]`: negative indices wrap once from the end;
an index out of range raises `IndexError`, modelled by `none`. -/
def pyGet {α : Type} (l : List α) (i : Int) : Option α :=
  if 0 ≤ i then l.get? i.toNat
  else if 0 ≤ i + l.length then l.get? (i + l.length).toNat
  else none

/-- Python list write `l[i] = v`: negative indices wrap once from the end;
an index out of range raises `IndexError`, modelled by `none`. -/
def pySet {α : Type} (l : List α) (i : Int) (v : α) : Option (List α) :=
  if 0 ≤ i then
    if i < (l.length : Int) then some (l.set i.toNat v) else none
  else if 0 ≤ i + l.length then some (l.set (i + l.length).toNat v) else none

/-- Method `MachineState.position` (lines 78-81). -/
def MachineState.position (m : MachineState) : Option Position :=
  if (m.tape.length : Int) ≤ m.head then some ⟨m.state, BLANK⟩
  else (pyGet m.tape m.head).map fun c => ⟨m.state, c⟩

/-- Method `MachineState.copy` (lines 72-73).  In this value-level model a
copy is the value itself; the heap-level model `HeapState` below captures
what `self._tape.copy()` does to storage. -/
def MachineState.copy (m : MachineState) : MachineState := m

/-- The tape after the materialization step of `do_move` (lines 88-89):
`if self._head >= len(self._tape): self._tape = self._tape + [BLANK]`. -/
def materialize (m : MachineState) : List Letter :=
  if (m.tape.length : Int) ≤ m.head then m.tape ++ [BLANK] else m.tape

/-- The tape after the write `self._tape[self._head] = move.letter_to_write`
(line 90), performed on the materialized tape. -/
def writePhase (m : MachineState) (l : Letter) : Option (List Letter) :=
  pySet (materialize m) m.head l

/-- Method `MachineState.do_move` (lines 83-101): set the state, materialize
at most one `BLANK` cell, write at the head, then adjust the head
(`LEFT` bounded at 0, `RIGHT` extends by one `BLANK` when moving past the
end, `STAY` unchanged). -/
def MachineState.do_move (m : MachineState) (mv : Move) : Option MachineState :=
  match writePhase m mv.letter_to_write with
  | none => none
  | some w =>
    if mv.direction = DIRECTION_LEFT then
      some ⟨w, if 0 < m.head then m.head - 1 else m.head, mv.state_target⟩
    else if mv.direction = DIRECTION_RIGHT then
      some ⟨if (w.length : Int) ≤ m.head + 1 then w ++ [BLANK] else w,
            m.head + 1, mv.state_target⟩
    else
      some ⟨w, m.head, mv.state_target⟩

/-- The identity stored in `Machine._states_visited`: the source stores
`hash(("".join(self._tape), self._state, self._head))` (lines 69-70, 126-128);
the deterministic content of that hash is the triple itself, with the joined
tape as its character sequence. -/
abbrev HashKey := List Char × State × Int

/-- Python `"".join(tape)`, as the concatenated character sequence. -/
def joinTape (tape : List Letter) : List Char :=
  (tape.map String.data).flatten

/-- Method `MachineState.__hash__` (lines 69-70). -/
def MachineState.hashKey (m : MachineState) : HashKey :=
  (joinTape m.tape, m.state, m.head)

/-- Inner loop of `Machine.run` over the moves of one live machine
(lines 123-129): copy, `do_move`, skip if the hash was visited, otherwise
record the hash and append the successor. -/
def stepMoves (m : MachineState) :
    List Move → List HashKey → List MachineState →
    Option (List MachineState × List HashKey)
  | [], vis, acc => some (acc, vis)
  | mv :: rest, vis, acc =>
    match (MachineState.copy m).do_move mv with
    | none => none
    | some m' =>
      if m'.hashKey ∈ vis then stepMoves m rest vis acc
      else stepMoves m rest (m'.hashKey :: vis) (acc ++ [m'])

/-- Loop of `Machine.run` over the live machines of one step
(lines 117-129): evaluate the moves of each machine (a `None` or empty
result kills the branch) and collect deduplicated successors. -/
def stepMachines (d : MachineDefinition) :
    List MachineState → List HashKey → List MachineState →
    Option (List MachineState × List HashKey)
  | [], vis, acc => some (acc, vis)
  | m :: rest, vis, acc =>
    match m.position with
    | none => none
    | some pos =>
      match evaluate_moves d pos with
      | none => stepMachines d rest vis acc
      | some moves =>
        if moves = [] then stepMachines d rest vis acc
        else
          match stepMoves m moves vis acc with
          | none => none
          | some (acc', vis') => stepMachines d rest vis' acc'

/-- The `while step_i < steps` loop of `Machine.run` (lines 116-140), with
the remaining budget as fuel.  When the loop ends without a break the last
completed iteration had `accepts = rejects = 0`, so the verdict is `NO`;
a break on a step with accepting or rejecting successors yields `YES`
exactly when `accepts > 0 and rejects == 0`.  The visited set is threaded
and returned because it lives on the `Machine` object. -/
def runLoop (d : MachineDefinition) :
    Nat → List MachineState → List HashKey → Option String × List HashKey
  | 0, _, vis => (some "NO", vis)
  | fuel + 1, machines, vis =>
    match stepMachines d machines vis [] with
    | none => (none, vis)
    | some (new_machines, vis') =>
      let accepts := (new_machines.filter fun m => m.state = STATE_ACCEPT).length
      let rejects := (new_machines.filter fun m => m.state = STATE_REJECT).length
      if accepts ≠ 0 ∨ rejects ≠ 0 then
        (some (if 0 < accepts ∧ rejects = 0 then "YES" else "NO"), vis')
      else if new_machines = [] then ((some "NO" : Option String), vis')
      else runLoop d fuel new_machines vis'

/-- The initial configuration of a run (lines 113-114):
`machines = [MachineState(list(tape_str), 0, STATE_INIT)]`. -/
def initState (tape_str : String) : MachineState :=
  ⟨tape_str.data.map String.singleton, 0, STATE_INIT⟩

/-- Class `Machine` (lines 104-110): holds the definition and the mutable
`_states_visited` set, which `__init__` creates once per instance. -/
structure Machine where
  definition : MachineDefinition
  states_visited : List HashKey

/-- Method `Machine.run` (lines 112-140).  With `steps = 0` the `while`
body never executes, so line 138 reads the unassigned locals `accepts`
and `rejects`: an `UnboundLocalError`, modelled as `none`.  The returned
`Machine` carries the visited set as mutated by this call. -/
def Machine.run (M : Machine) (steps : Nat) (tape_str : String) :
    Option String × Machine :=
  if steps = 0 then (none, M)
  else
    let r := runLoop M.definition steps [initState tape_str] M.states_visited
    (r.1, ⟨M.definition, r.2⟩)

/-- A single simulation on a freshly constructed `Machine`, as `__main__`
does (lines 160-172): verdict only. -/
def runFresh (d : MachineDefinition) (steps : Nat) (tape_str : String) :
    Option String :=
  ((Machine.mk d []).run steps tape_str).1

/-- Spec comparison variant (spec §8, idempotence of dedup): the inner move
loop with the visited-set deduplication disabled — every produced successor
is kept. -/
def stepMovesND (m : MachineState) :
    List Move → List MachineState → Option (List MachineState)
  | [], acc => some acc
  | mv :: rest, acc =>
    match (MachineState.copy m).do_move mv with
    | none => none
    | some m' => stepMovesND m rest (acc ++ [m'])

/-- Spec comparison variant: one expansion step without deduplication. -/
def stepMachinesND (d : MachineDefinition) :
    List MachineState → List MachineState → Option (List MachineState)
  | [], acc => some acc
  | m :: rest, acc =>
    match m.position with
    | none => none
    | some pos =>
      match evaluate_moves d pos with
      | none => stepMachinesND d rest acc
      | some moves =>
        if moves = [] then stepMachinesND d rest acc
        else
          match stepMovesND m moves acc with
          | none => none
          | some acc' => stepMachinesND d rest acc'

/-- Spec comparison variant: the engine loop without deduplication. -/
def runLoopND (d : MachineDefinition) :
    Nat → List MachineState → Option String
  | 0, _ => some "NO"
  | fuel + 1, machines =>
    match stepMachinesND d machines [] with
    | none => none
    | some new_machines =>
      let accepts := (new_machines.filter fun m => m.state = STATE_ACCEPT).length
      let rejects := (new_machines.filter fun m => m.state = STATE_REJECT).length
      if accepts ≠ 0 ∨ rejects ≠ 0 then
        some (if 0 < accepts ∧ rejects = 0 then "YES" else "NO")
      else if new_machines = [] then some "NO"
      else runLoopND d fuel new_machines

/-- Spec comparison variant: `Machine.run` with the visited set disabled and
an otherwise identical table, tape and budget. -/
def runNoDedup (d : MachineDefinition) (steps : Nat) (tape_str : String) :
    Option String :=
  if steps = 0 then none else runLoopND d steps [initState tape_str]

/-- Successors of one configuration as an `Option`: the branch's moves
(`none` or `[]` means the branch dies with no successors), each applied by
`do_move`. -/
def movesSuccs (m : MachineState) : List Move → Option (List MachineState)
  | [] => some []
  | mv :: rest =>
    match (MachineState.copy m).do_move mv with
    | none => none
    | some m' => (movesSuccs m rest).map (m' :: ·)

/-- Successor list of one configuration, `Option`-valued. -/
def succsOpt (d : MachineDefinition) (m : MachineState) :
    Option (List MachineState) :=
  match m.position with
  | none => none
  | some pos =>
    match evaluate_moves d pos with
    | none => some []
    | some moves => if moves = [] then some [] else movesSuccs m moves

/-- Total successor function used by the abstract breadth-first reference;
it agrees with `succsOpt` on well-formed configurations. -/
def succsOf (d : MachineDefinition) (m : MachineState) : List MachineState :=
  (succsOpt d m).getD []

/-- Abstract breadth-first reference: expand every live configuration, stop
on the first layer with an accepting or rejecting member (reject wins a
tie), on extinction, or on fuel exhaustion. -/
def bfsAbs (d : MachineDefinition) : Nat → List MachineState → String
  | 0, _ => "NO"
  | fuel + 1, machines =>
    let new := machines.flatMap (succsOf d)
    let accepts := (new.filter fun m => m.state = STATE_ACCEPT).length
    let rejects := (new.filter fun m => m.state = STATE_REJECT).length
    if accepts ≠ 0 ∨ rejects ≠ 0 then
      if 0 < accepts ∧ rejects = 0 then "YES" else "NO"
    else if new = [] then "NO"
    else bfsAbs d fuel new

/-- Layer `k` of the unrestricted breadth-first expansion from the initial
configuration. -/
def levels (d : MachineDefinition) (tape_str : String) : Nat → List MachineState
  | 0 => [initState tape_str]
  | k + 1 => (levels d tape_str k).flatMap (succsOf d)

/-- Well-formedness invariant of a configuration: the head lies between 0
and the materialized tape length. -/
def WFState (m : MachineState) : Prop :=
  0 ≤ m.head ∧ m.head ≤ m.tape.length

/-- Every tape cell is a single character (as produced by `list(tape_str)`
and by writes of single-character letters). -/
def SCState (m : MachineState) : Prop :=
  ∀ l ∈ m.tape, l.length = 1

/-- Every move stored in the built transition table writes a
single-character letter. -/
def OneCharDef (d : MachineDefinition) : Prop :=
  ∀ e ∈ d, ∀ p ∈ e.2, ∀ mv ∈ p.2, mv.letter_to_write.length = 1

/-- The sequence of `new_machines` lists actually produced by the engine
loop: one entry per executed iteration, ending with the frontier of the
iteration that breaks (on a verdict or on extinction). -/
def frontierSeq (d : MachineDefinition) :
    Nat → List MachineState → List HashKey → List (List MachineState)
  | 0, _, _ => []
  | fuel + 1, machines, vis =>
    match stepMachines d machines vis [] with
    | none => []
    | some (new_machines, vis') =>
      let accepts := (new_machines.filter fun m => m.state = STATE_ACCEPT).length
      let rejects := (new_machines.filter fun m => m.state = STATE_REJECT).length
      if accepts ≠ 0 ∨ rejects ≠ 0 then [new_machines]
      else if new_machines = [] then [new_machines]
      else new_machines :: frontierSeq d fuel new_machines vis'

/-- The frontiers actually produced by `Machine.run` on a fresh machine. -/
def runFrontiers (d : MachineDefinition) (steps : Nat) (tape_str : String) :
    List (List MachineState) :=
  if steps = 0 then [] else frontierSeq d steps [initState tape_str] []

/-- Configurations that can occur during a run on input `tape_str`: the
initial configuration, and anything `do_move` produces from a reachable
configuration (with any move whatsoever). -/
inductive ReachableState (tape_str : String) : MachineState → Prop where
  | start : ReachableState tape_str (initState tape_str)
  | step : ∀ m mv m', ReachableState tape_str m →
      (MachineState.copy m).do_move mv = some m' → ReachableState tape_str m'

/-- Heap-level model: the store holds the tape list objects, addressed by
allocation index. -/
abbrev Store := List (List Letter)

/-- Heap-level model of `MachineState`: `_tape` is a reference into the
store; `_head` and `_state` are immutable values rebound on assignment. -/
structure HeapState where
  tapeRef : Nat
  head : Int
  state : State
deriving DecidableEq

/-- Contents of a tape object in the store. -/
def Store.getTape (st : Store) (r : Nat) : List Letter :=
  st.getD r []

/-- Heap-level `MachineState.copy` (lines 72-73): `self._tape.copy()`
allocates a fresh list object with the same contents; head and state are
copied by value. -/
def HeapState.copy (c : HeapState) (st : Store) : HeapState × Store :=
  (⟨st.length, c.head, c.state⟩, st ++ [st.getTape c.tapeRef])

/-- Heap-level `MachineState.do_move` (lines 83-101): reads the tape object
through the reference, and writes the updated tape back in place at the
same reference (lines 88-90 and 98-99 mutate or rebind `self._tape`). -/
def HeapState.do_move (c : HeapState) (mv : Move) (st : Store) :
    Option (HeapState × Store) :=
  let tape := st.getTape c.tapeRef
  let tape1 := if (tape.length : Int) ≤ c.head then tape ++ [BLANK] else tape
  match pySet tape1 c.head mv.letter_to_write with
  | none => none
  | some w =>
    if mv.direction = DIRECTION_LEFT then
      some (⟨c.tapeRef, if 0 < c.head then c.head - 1 else c.head, mv.state_target⟩,
            st.set c.tapeRef w)
    else if mv.direction = DIRECTION_RIGHT then
      some (⟨c.tapeRef, c.head + 1, mv.state_target⟩,
            st.set c.tapeRef (if (w.length : Int) ≤ c.head + 1 then w ++ [BLANK] else w))
    else
      some (⟨c.tapeRef, c.head, mv.state_target⟩, st.set c.tapeRef w)

/-- Concatenated successor candidates of a list of machines, in engine
order; `none` if any expansion crashes. -/
def candsOpt (d : MachineDefinition) : List MachineState → Option (List MachineState)
  | [] => some []
  | m :: rest =>
    match succsOpt d m with
    | none => none
    | some cs => (candsOpt d rest).map (cs ++ ·)

/-- The visited-set filter applied to a candidate list: keep each candidate
whose hash is new, recording hashes as it goes. -/
def dedupFold : List MachineState → List HashKey → List MachineState →
    List MachineState × List HashKey
  | [], vis, acc => (acc, vis)
  | c :: rest, vis, acc =>
    if c.hashKey ∈ vis then dedupFold rest vis acc
    else dedupFold rest (c.hashKey :: vis) (acc ++ [c])

/-- All moves of the input transition sequence registered for a
`(state, letter)` pair, in input order; the spec-level reading of the
transition table (spec §4.1). -/
def movesFor (ts : List Transition) (pos : Position) : List Move :=
  (ts.filter fun t =>
    t.state_current = pos.state ∧ t.letter_current = pos.letter).map
    fun t => ⟨t.letter_to_write, t.direction, t.state_target⟩

/-- Some configuration of layer `j`, `1 ≤ j ≤ k`, equals `c`: the
identities the visited set holds after `k` completed engine steps. -/
def seenBelow (d : MachineDefinition) (tape_str : String) (k : Nat)
    (c : MachineState) : Prop :=
  ∃ j, 1 ≤ j ∧ j ≤ k ∧ c ∈ levels d tape_str j

/-- Layer `k` contains an accepting or rejecting configuration. -/
def levelHasTerm (d : MachineDefinition) (tape_str : String) (k : Nat) : Prop :=
  ∃ c ∈ levels d tape_str k, c.state = STATE_ACCEPT ∨ c.state = STATE_REJECT

/-- First layer at which a configuration appears (counting produced layers
only, from 1; the initial configuration itself is never recorded as
visited). -/
def firstAt (d : MachineDefinition) (tape_str : String) (k : Nat)
    (c : MachineState) : Prop :=
  c ∈ levels d tape_str k ∧ ∀ j, 1 ≤ j → j < k → c ∉ levels d tape_str j

/-- The one-transition machine of spec §8: `(INIT, BLANK, ACCEPT, BLANK, S)`,
which is also the table `{(start,0,accept,0,S)}` since `BLANK = "0"`. -/
def acceptDef : MachineDefinition :=
  parse_transitions [⟨"start", "0", "accept", "0", "S"⟩]

/-- The tie machine of spec §8: two competing moves from `(start, 0)`, one
to `accept` and one to `reject`, both reachable in one step. -/
def tieDef : MachineDefinition :=
  parse_transitions
    [⟨"start", "0", "accept", "0", "S"⟩, ⟨"start", "0", "reject", "0", "S"⟩]

/-- A machine separating the deduplicated engine from the engine with the
visited set disabled.  The moves from `qa` and `qb` write letters of
different lengths, producing the distinct tapes `["0", "00", "0"]` and
`["00", "0", "0"]`, whose joined strings coincide; the hash-based visited
set therefore prunes the second branch, which is the only branch that goes
on to accept. -/
def dedupCexTransitions : List Transition :=
  [⟨"start", "0", "qa", "0", "R"⟩,
   ⟨"start", "0", "qb", "00", "R"⟩,
   ⟨"qa", "0", "q", "00", "R"⟩,
   ⟨"qb", "0", "q", "0", "R"⟩,
   ⟨"q", "0", "p", "0", "L"⟩,
   ⟨"p", "0", "accept", "0", "S"⟩]

/-- The built table of the deduplication counterexample. -/
def dedupCexDef : MachineDefinition :=
  parse_transitions dedupCexTransitions

/-! Basic lemmas about the write phase and `do_move`. -/

theorem materialize_length_lt (m : MachineState)
    (hle : m.head ≤ m.tape.length) :
    m.head < ((materialize m).length : Int) := by
  unfold materialize
  by_cases h : (m.tape.length : Int) ≤ m.head
  · rw [if_pos h]; simp; omega
  · rw [if_neg h]; omega

theorem materialize_length_ge (m : MachineState) :
    m.tape.length ≤ (materialize m).length := by
  unfold materialize
  by_cases h : (m.tape.length : Int) ≤ m.head
  · rw [if_pos h]; simp
  · rw [if_neg h]

theorem writePhase_eq (m : MachineState) (l : Letter) (h0 : 0 ≤ m.head)
    (hle : m.head ≤ m.tape.length) :
    writePhase m l = some ((materialize m).set m.head.toNat l) := by
  unfold writePhase pySet
  rw [if_pos h0, if_pos (materialize_length_lt m hle)]

theorem do_move_eq (m : MachineState) (mv : Move) (h0 : 0 ≤ m.head)
    (hle : m.head ≤ m.tape.length) :
    m.do_move mv =
      (let w := (materialize m).set m.head.toNat mv.letter_to_write
      if mv.direction = DIRECTION_LEFT then
        some ⟨w, if 0 < m.head then m.head - 1 else m.head, mv.state_target⟩
      else if mv.direction = DIRECTION_RIGHT then
        some ⟨if (w.length : Int) ≤ m.head + 1 then w ++ [BLANK] else w,
              m.head + 1, mv.state_target⟩
      else
        some ⟨w, m.head, mv.state_target⟩) := by
  unfold MachineState.do_move
  rw [writePhase_eq m mv.letter_to_write h0 hle]

theorem do_move_total (m : MachineState) (mv : Move) (h : WFState m) :
    ∃ m', m.do_move mv = some m' := by
  obtain ⟨h0, hle⟩ := h
  rw [do_move_eq m mv h0 hle]
  by_cases hL : mv.direction = DIRECTION_LEFT
  · rw [if_pos hL]; exact ⟨_, rfl⟩
  · rw [if_neg hL]
    by_cases hR : mv.direction = DIRECTION_RIGHT
    · rw [if_pos hR]; exact ⟨_, rfl⟩
    · rw [if_neg hR]; exact ⟨_, rfl⟩

theorem do_move_wf (m : MachineState) (mv : Move) (m' : MachineState)
    (h : WFState m) (he : m.do_move mv = some m') : WFState m' := by
  obtain ⟨h0, hle⟩ := h
  have hlt := materialize_length_lt m hle
  rw [do_move_eq m mv h0 hle] at he
  simp only at he
  set w := (materialize m).set m.head.toNat mv.letter_to_write with hw
  have hwlen : (w.length : Int) = (materialize m).length := by
    rw [hw, List.length_set]
  by_cases hL : mv.direction = DIRECTION_LEFT
  · rw [if_pos hL] at he
    cases he
    constructor
    · simp only [MachineState.head]
      by_cases hp : 0 < m.head
      · rw [if_pos hp]; omega
      · rw [if_neg hp]; omega
    · simp only [MachineState.tape, MachineState.head]
      by_cases hp : 0 < m.head
      · rw [if_pos hp]; omega
      · rw [if_neg hp]; omega
  · rw [if_neg hL] at he
    by_cases hR : mv.direction = DIRECTION_RIGHT
    · rw [if_pos hR] at he
      cases he
      constructor
      · simp only [MachineState.head]; omega
      · simp only [MachineState.tape, MachineState.head]
        by_cases hp : (w.length : Int) ≤ m.head + 1
        · rw [if_pos hp]; simp; omega
        · rw [if_neg hp]; omega
    · rw [if_neg hR] at he
      cases he
      exact ⟨h0, by simp only [MachineState.tape, MachineState.head]; omega⟩

theorem do_move_state (m : MachineState) (mv : Move) (m' : MachineState)
    (he : m.do_move mv = some m') : m'.state = mv.state_target := by
  unfold MachineState.do_move at he
  split at he
  · cases he
  · split at he
    · cases he; rfl
    · split at he
      · cases he; rfl
      · cases he; rfl

theorem position_total (m : MachineState) (h0 : 0 ≤ m.head) :
    ∃ p, m.position = some p := by
  unfold MachineState.position
  by_cases h : (m.tape.length : Int) ≤ m.head
  · rw [if_pos h]; exact ⟨_, rfl⟩
  · rw [if_neg h]
    unfold pyGet
    rw [if_pos h0]
    have hlt : m.head.toNat < m.tape.length := by omega
    rw [List.get?_eq_get hlt]
    exact ⟨_, rfl⟩

/-! Preservation of single-character tapes, and successor lemmas. -/

theorem BLANK_length : BLANK.length = 1 := rfl

theorem materialize_sc (m : MachineState) (h : SCState m) :
    ∀ l ∈ materialize m, l.length = 1 := by
  intro l hl
  unfold materialize at hl
  by_cases hc : (m.tape.length : Int) ≤ m.head
  · rw [if_pos hc] at hl
    rcases List.mem_append.mp hl with h1 | h1
    · exact h l h1
    · rcases List.mem_singleton.mp h1 with rfl
      exact BLANK_length
  · rw [if_neg hc] at hl
    exact h l hl

theorem do_move_sc (m : MachineState) (mv : Move) (m' : MachineState)
    (hwf : WFState m) (hsc : SCState m) (hmv : mv.letter_to_write.length = 1)
    (he : m.do_move mv = some m') : SCState m' := by
  obtain ⟨h0, hle⟩ := hwf
  rw [do_move_eq m mv h0 hle] at he
  simp only at he
  have hw : ∀ l ∈ (materialize m).set m.head.toNat mv.letter_to_write,
      l.length = 1 := by
    intro l hl
    rcases List.mem_or_eq_of_mem_set hl with h1 | rfl
    · exact materialize_sc m hsc l h1
    · exact hmv
  by_cases hL : mv.direction = DIRECTION_LEFT
  · rw [if_pos hL] at he; cases he; exact hw
  · rw [if_neg hL] at he
    by_cases hR : mv.direction = DIRECTION_RIGHT
    · rw [if_pos hR] at he
      cases he
      intro l hl
      simp only [MachineState.tape] at hl
      by_cases hp : (((materialize m).set m.head.toNat mv.letter_to_write).length : Int)
          ≤ m.head + 1
      · rw [if_pos hp] at hl
        rcases List.mem_append.mp hl with h1 | h1
        · exact hw l h1
        · rcases List.mem_singleton.mp h1 with rfl
          exact BLANK_length
      · rw [if_neg hp] at hl
        exact hw l hl
    · rw [if_neg hR] at he; cases he; exact hw


theorem movesSuccs_total (m : MachineState) (moves : List Move)
    (h : WFState m) : ∃ cs, movesSuccs m moves = some cs := by
  induction moves with
  | nil => exact ⟨[], rfl⟩
  | cons mv rest ih =>
    obtain ⟨m', hm'⟩ := do_move_total m mv h
    obtain ⟨cs, hcs⟩ := ih
    refine ⟨m' :: cs, ?_⟩
    unfold movesSuccs MachineState.copy
    rw [hm', hcs]
    rfl

theorem mem_movesSuccs (m : MachineState) (moves : List Move)
    (cs : List MachineState) (c : MachineState)
    (he : movesSuccs m moves = some cs) (hc : c ∈ cs) :
    ∃ mv ∈ moves, m.do_move mv = some c := by
  induction moves generalizing cs with
  | nil =>
    unfold movesSuccs at he
    cases he
    cases hc
  | cons mv rest ih =>
    unfold movesSuccs at he
    cases hdm : (MachineState.copy m).do_move mv with
    | none => rw [hdm] at he; cases he
    | some m' =>
      rw [hdm] at he
      cases hrest : movesSuccs m rest with
      | none => rw [hrest] at he; cases he
      | some cs' =>
        rw [hrest] at he
        simp only [Option.map_some'] at he
        cases he
        rcases List.mem_cons.mp hc with rfl | hmem
        · exact ⟨mv, List.mem_cons_self mv rest, hdm⟩
        · obtain ⟨mv', hmv', hdm'⟩ := ih cs' hrest hmem
          exact ⟨mv', List.mem_cons_of_mem mv hmv', hdm'⟩

theorem succsOpt_total (d : MachineDefinition) (m : MachineState)
    (h : WFState m) : succsOpt d m = some (succsOf d m) := by
  obtain ⟨p, hp⟩ := position_total m h.1
  cases hev : evaluate_moves d p with
  | none => simp [succsOf, succsOpt, hp, hev]
  | some moves =>
    by_cases hnil : moves = []
    · simp [succsOf, succsOpt, hp, hev, hnil]
    · obtain ⟨cs, hcs⟩ := movesSuccs_total m moves h
      simp [succsOf, succsOpt, hp, hev, hnil, hcs]

theorem mem_succsOf (d : MachineDefinition) (m c : MachineState)
    (h : WFState m) (hc : c ∈ succsOf d m) :
    ∃ pos moves, m.position = some pos ∧ evaluate_moves d pos = some moves ∧
      ∃ mv ∈ moves, m.do_move mv = some c := by
  obtain ⟨p, hp⟩ := position_total m h.1
  unfold succsOf succsOpt at hc
  rw [hp] at hc
  simp only at hc
  cases hev : evaluate_moves d p with
  | none => simp only [hev] at hc; simp at hc
  | some moves =>
    simp only [hev] at hc
    by_cases hnil : moves = []
    · rw [if_pos hnil] at hc
      simp at hc
    · rw [if_neg hnil] at hc
      cases hcs : movesSuccs m moves with
      | none => rw [hcs] at hc; simp at hc
      | some cs =>
        rw [hcs] at hc
        obtain ⟨mv, hmv, hdm⟩ := mem_movesSuccs m moves cs c hcs hc
        exact ⟨p, moves, hp, hev, mv, hmv, hdm⟩

/-! Invariants along the layers of the breadth-first expansion. -/

theorem initState_wf (tape_str : String) : WFState (initState tape_str) := by
  constructor
  · simp [initState]
  · simp [initState]
  
theorem initState_sc (tape_str : String) : SCState (initState tape_str) := by
  intro l hl
  simp only [initState] at hl
  obtain ⟨c, _, rfl⟩ := List.mem_map.mp hl
  rfl

theorem succsOf_wf (d : MachineDefinition) (m c : MachineState)
    (h : WFState m) (hc : c ∈ succsOf d m) : WFState c := by
  obtain ⟨_, _, _, _, mv, _, hdm⟩ := mem_succsOf d m c h hc
  exact do_move_wf m mv c h hdm

theorem levels_wf (d : MachineDefinition) (t : String) (k : Nat) :
    ∀ c ∈ levels d t k, WFState c := by
  induction k with
  | zero =>
    intro c hc
    rcases List.mem_singleton.mp hc with rfl
    exact initState_wf t
  | succ k ih =>
    intro c hc
    unfold levels at hc
    obtain ⟨p, hp, hcp⟩ := List.mem_flatMap.mp hc
    exact succsOf_wf d p c (ih p hp) hcp

theorem evaluate_moves_mem (d : MachineDefinition) (pos : Position)
    (moves : List Move) (mv : Move) (he : evaluate_moves d pos = some moves)
    (hmv : mv ∈ moves) : ∃ e ∈ d, ∃ p ∈ e.2, mv ∈ p.2 := by
  unfold evaluate_moves at he
  cases hfs : findState d pos.state with
  | none => rw [hfs] at he; cases he
  | some lm =>
    rw [hfs] at he
    have hlm : (pos.state, lm) ∈ d := by
      clear he
      induction d with
      | nil => cases hfs
      | cons e rest ih =>
        obtain ⟨s', lm'⟩ := e
        unfold findState at hfs
        by_cases hs : s' = pos.state
        · rw [if_pos hs] at hfs
          cases hfs
          subst hs
          exact List.mem_cons_self _ _
        · rw [if_neg hs] at hfs
          exact List.mem_cons_of_mem _ (ih hfs)
    have hms : (pos.letter, moves) ∈ lm := by
      clear hfs hlm
      induction lm with
      | nil => cases he
      | cons p rest ih =>
        obtain ⟨l', ms'⟩ := p
        unfold findLetter at he
        by_cases hl : l' = pos.letter
        · rw [if_pos hl] at he
          cases he
          subst hl
          exact List.mem_cons_self _ _
        · rw [if_neg hl] at he
          exact List.mem_cons_of_mem _ (ih he)
    exact ⟨(pos.state, lm), hlm, (pos.letter, moves), hms, hmv⟩

theorem succsOf_sc (d : MachineDefinition) (m c : MachineState)
    (hd : OneCharDef d) (h : WFState m) (hsc : SCState m)
    (hc : c ∈ succsOf d m) : SCState c := by
  obtain ⟨pos, moves, _, hev, mv, hmv, hdm⟩ := mem_succsOf d m c h hc
  obtain ⟨e, he, p, hp, hmvp⟩ := evaluate_moves_mem d pos moves mv hev hmv
  exact do_move_sc m mv c h hsc (hd e he p hp mv hmvp) hdm

theorem levels_sc (d : MachineDefinition) (t : String) (hd : OneCharDef d)
    (k : Nat) : ∀ c ∈ levels d t k, SCState c := by
  induction k with
  | zero =>
    intro c hc
    rcases List.mem_singleton.mp hc with rfl
    exact initState_sc t
  | succ k ih =>
    intro c hc
    unfold levels at hc
    obtain ⟨p, hp, hcp⟩ := List.mem_flatMap.mp hc
    exact succsOf_sc d p c hd (levels_wf d t k p hp) (ih p hp) hcp

/-! The engine's interleaved step loops, re-expressed as a flat candidate
list followed by the visited-set filter. -/

theorem dedupFold_cons_mem (c : MachineState) (rest : List MachineState)
    (vis : List HashKey) (acc : List MachineState) (hk : c.hashKey ∈ vis) :
    dedupFold (c :: rest) vis acc = dedupFold rest vis acc := by
  conv_lhs => unfold dedupFold
  rw [if_pos hk]

theorem dedupFold_cons_not_mem (c : MachineState) (rest : List MachineState)
    (vis : List HashKey) (acc : List MachineState) (hk : c.hashKey ∉ vis) :
    dedupFold (c :: rest) vis acc =
      dedupFold rest (c.hashKey :: vis) (acc ++ [c]) := by
  conv_lhs => unfold dedupFold
  rw [if_neg hk]

theorem dedupFold_append (a b : List MachineState) (vis : List HashKey)
    (acc : List MachineState) :
    dedupFold (a ++ b) vis acc =
      dedupFold b (dedupFold a vis acc).2 (dedupFold a vis acc).1 := by
  induction a generalizing vis acc with
  | nil => simp [dedupFold]
  | cons c rest ih =>
    rw [List.cons_append]
    by_cases hk : c.hashKey ∈ vis
    · rw [dedupFold_cons_mem _ _ _ _ hk, dedupFold_cons_mem _ _ _ _ hk, ih]
    · rw [dedupFold_cons_not_mem _ _ _ _ hk, dedupFold_cons_not_mem _ _ _ _ hk, ih]

theorem stepMoves_eq (m : MachineState) (moves : List Move)
    (vis : List HashKey) (acc : List MachineState) :
    stepMoves m moves vis acc =
      match movesSuccs m moves with
      | none => none
      | some cs => some (dedupFold cs vis acc) := by
  induction moves generalizing vis acc with
  | nil => rfl
  | cons mv rest ih =>
    unfold stepMoves movesSuccs
    cases hdm : (MachineState.copy m).do_move mv with
    | none => rfl
    | some m' =>
      dsimp only
      cases hrest : movesSuccs m rest with
      | none =>
        by_cases hk : m'.hashKey ∈ vis
        · rw [if_pos hk, ih vis acc, hrest]
          rfl
        · rw [if_neg hk, ih _ _, hrest]
          rfl
      | some cs =>
        by_cases hk : m'.hashKey ∈ vis
        · rw [if_pos hk, ih vis acc, hrest]
          simp only [Option.map_some']
          rw [dedupFold_cons_mem _ _ _ _ hk]
        · rw [if_neg hk, ih _ _, hrest]
          simp only [Option.map_some']
          rw [dedupFold_cons_not_mem _ _ _ _ hk]

theorem stepMachines_eq (d : MachineDefinition) (ms : List MachineState)
    (vis : List HashKey) (acc : List MachineState) :
    stepMachines d ms vis acc =
      match candsOpt d ms with
      | none => none
      | some cs => some (dedupFold cs vis acc) := by
  induction ms generalizing vis acc with
  | nil => rfl
  | cons m rest ih =>
    unfold stepMachines candsOpt succsOpt
    cases hp : m.position with
    | none => rfl
    | some pos =>
      dsimp only
      cases hev : evaluate_moves d pos with
      | none =>
        dsimp only
        rw [ih]
        cases hcr : candsOpt d rest <;> simp
      | some moves =>
        dsimp only
        by_cases hnil : moves = []
        · rw [if_pos hnil, if_pos hnil, ih]
          cases hcr : candsOpt d rest <;> simp
        · rw [if_neg hnil, if_neg hnil, stepMoves_eq]
          cases hms : movesSuccs m moves with
          | none =>
            cases hcr : candsOpt d rest <;> simp
          | some cs1 =>
            simp only [Option.map_some']
            rw [ih]
            cases hcr : candsOpt d rest with
            | none => simp
            | some cs2 => simp [dedupFold_append]

theorem stepMovesND_eq (m : MachineState) (moves : List Move)
    (acc : List MachineState) :
    stepMovesND m moves acc = (movesSuccs m moves).map (acc ++ ·) := by
  induction moves generalizing acc with
  | nil => simp [stepMovesND, movesSuccs]
  | cons mv rest ih =>
    unfold stepMovesND movesSuccs
    cases hdm : (MachineState.copy m).do_move mv with
    | none => rfl
    | some m' =>
      dsimp only
      rw [ih]
      cases hrest : movesSuccs m rest <;> simp

theorem stepMachinesND_eq (d : MachineDefinition) (ms : List MachineState)
    (acc : List MachineState) :
    stepMachinesND d ms acc = (candsOpt d ms).map (acc ++ ·) := by
  induction ms generalizing acc with
  | nil => simp [stepMachinesND, candsOpt]
  | cons m rest ih =>
    unfold stepMachinesND candsOpt succsOpt
    cases hp : m.position with
    | none => rfl
    | some pos =>
      dsimp only
      cases hev : evaluate_moves d pos with
      | none =>
        dsimp only
        rw [ih]
        cases hcr : candsOpt d rest <;> simp
      | some moves =>
        dsimp only
        by_cases hnil : moves = []
        · rw [if_pos hnil, if_pos hnil, ih]
          cases hcr : candsOpt d rest <;> simp
        · rw [if_neg hnil, if_neg hnil, stepMovesND_eq]
          cases hms : movesSuccs m moves with
          | none => rfl
          | some cs1 =>
            simp only [Option.map_some']
            rw [ih]
            cases hcr : candsOpt d rest <;> simp

theorem candsOpt_wf (d : MachineDefinition) (ms : List MachineState)
    (h : ∀ c ∈ ms, WFState c) :
    candsOpt d ms = some (ms.flatMap (succsOf d)) := by
  induction ms with
  | nil => rfl
  | cons m rest ih =>
    unfold candsOpt
    rw [succsOpt_total d m (h m (List.mem_cons_self m rest)),
        ih fun c hc => h c (List.mem_cons_of_mem m hc)]
    rfl

/-! Totality of the engine loops on well-formed frontiers. -/

theorem dedupFold_subset (cands : List MachineState) (vis : List HashKey)
    (acc : List MachineState) (x : MachineState)
    (hx : x ∈ (dedupFold cands vis acc).1) : x ∈ acc ∨ x ∈ cands := by
  induction cands generalizing vis acc with
  | nil => exact Or.inl hx
  | cons c rest ih =>
    by_cases hk : c.hashKey ∈ vis
    · rw [dedupFold_cons_mem _ _ _ _ hk] at hx
      rcases ih _ _ hx with h | h
      · exact Or.inl h
      · exact Or.inr (List.mem_cons_of_mem c h)
    · rw [dedupFold_cons_not_mem _ _ _ _ hk] at hx
      rcases ih _ _ hx with h | h
      · rcases List.mem_append.mp h with h1 | h1
        · exact Or.inl h1
        · exact Or.inr (List.mem_singleton.mp h1 ▸ List.mem_cons_self c rest)
      · exact Or.inr (List.mem_cons_of_mem c h)

theorem runLoopND_eq_bfsAbs (d : MachineDefinition) (fuel : Nat)
    (ms : List MachineState) (h : ∀ c ∈ ms, WFState c) :
    runLoopND d fuel ms = some (bfsAbs d fuel ms) := by
  induction fuel generalizing ms with
  | zero => rfl
  | succ fuel ih =>
    unfold runLoopND bfsAbs
    rw [stepMachinesND_eq, candsOpt_wf d ms h]
    simp only [Option.map_some', List.nil_append]
    have hwf : ∀ c ∈ ms.flatMap (succsOf d), WFState c := by
      intro c hc
      obtain ⟨p, hp, hcp⟩ := List.mem_flatMap.mp hc
      exact succsOf_wf d p c (h p hp) hcp
    by_cases hterm :
        ((ms.flatMap (succsOf d)).filter fun m =>
            m.state = STATE_ACCEPT).length ≠ 0 ∨
        ((ms.flatMap (succsOf d)).filter fun m =>
            m.state = STATE_REJECT).length ≠ 0
    · rw [if_pos hterm, if_pos hterm]
    · rw [if_neg hterm, if_neg hterm]
      by_cases hnil : ms.flatMap (succsOf d) = []
      · rw [if_pos hnil, if_pos hnil]
      · rw [if_neg hnil, if_neg hnil]
        exact ih _ hwf

theorem runLoop_total (d : MachineDefinition) (fuel : Nat)
    (ms : List MachineState) (vis : List HashKey) (h : ∀ c ∈ ms, WFState c) :
    (runLoop d fuel ms vis).1 = some "YES" ∨
    (runLoop d fuel ms vis).1 = some "NO" := by
  induction fuel generalizing ms vis with
  | zero => exact Or.inr rfl
  | succ fuel ih =>
    unfold runLoop
    rw [stepMachines_eq, candsOpt_wf d ms h]
    simp only
    have hwf : ∀ c ∈ (dedupFold (ms.flatMap (succsOf d)) vis []).1, WFState c := by
      intro c hc
      rcases dedupFold_subset _ _ _ _ hc with h1 | h1
      · cases h1
      · obtain ⟨p, hp, hcp⟩ := List.mem_flatMap.mp h1
        exact succsOf_wf d p c (h p hp) hcp
    by_cases hterm :
        (((dedupFold (ms.flatMap (succsOf d)) vis []).1.filter fun m =>
            m.state = STATE_ACCEPT).length ≠ 0) ∨
        (((dedupFold (ms.flatMap (succsOf d)) vis []).1.filter fun m =>
            m.state = STATE_REJECT).length ≠ 0)
    · rw [if_pos hterm]
      by_cases hv : 0 < ((dedupFold (ms.flatMap (succsOf d)) vis []).1.filter
            fun m => m.state = STATE_ACCEPT).length ∧
          ((dedupFold (ms.flatMap (succsOf d)) vis []).1.filter
            fun m => m.state = STATE_REJECT).length = 0
      · rw [if_pos hv]; exact Or.inl rfl
      · rw [if_neg hv]; exact Or.inr rfl
    · rw [if_neg hterm]
      by_cases hnil : (dedupFold (ms.flatMap (succsOf d)) vis []).1 = []
      · rw [if_pos hnil]; exact Or.inr rfl
      · rw [if_neg hnil]; exact ih _ _ hwf

theorem runFresh_succ (d : MachineDefinition) (n : Nat) (t : String) :
    runFresh d (n + 1) t = (runLoop d (n + 1) [initState t] []).1 := by
  unfold runFresh Machine.run
  rw [if_neg (Nat.succ_ne_zero n)]

/-- C1: the engine is claimed to return exactly `YES` or `NO` for every
table, tape and budget `≥ 0`, never raising an error.  For budgets `≥ 1`
this holds, but with a budget of exactly 0 the `while` body never runs and
line 138 reads the unassigned locals `accepts` / `rejects`, raising
`UnboundLocalError` — modelled by `none`. -/
theorem c1_budget_zero_crashes (d : MachineDefinition) (t : String) (steps : Nat) :
    (runFresh d (steps + 1) t = some "YES" ∨ runFresh d (steps + 1) t = some "NO") ∧
    runFresh d 0 t = none := by
  constructor
  · rw [runFresh_succ]
    apply runLoop_total
    intro c hc
    rcases List.mem_singleton.mp hc with rfl
    exact initState_wf t
  · rfl

/-- C3: the spec scopes the visited set to a single simulation call, so two
successive `run` calls on the same engine instance with identical arguments
must return the same verdict.  In the code `_states_visited` is created in
`__init__` and never cleared in `run`, so the second identical call finds
every successor already visited, prunes them all, and returns `NO` even
though the first call returned `YES`. -/
theorem c3_second_run_differs :
    ((Machine.mk acceptDef []).run 1 "0").1 = some "YES" ∧
    ((((Machine.mk acceptDef []).run 1 "0").2).run 1 "0").1 = some "NO" := by
  constructor
  · decide
  · decide

/-- C9: the machine with the single transition `(INIT, BLANK, ACCEPT,
BLANK, S)` — which, since `BLANK = "0"`, is also the table
`{(start,0,accept,0,S)}` — returns `YES` on the empty tape with any budget
`≥ 1`, and returns `YES` on tape `"0"` with budget 1. -/
theorem c9_single_transition_accepts (steps : Nat) :
    runFresh acceptDef (steps + 1) "" = some "YES" ∧
    runFresh acceptDef 1 "0" = some "YES" := by
  constructor
  · rw [runFresh_succ]
    rfl
  · decide

/-- C7: a `LEFT` move from head 0 leaves the head at 0, from head `> 0`
decrements it by exactly one, and no move of any direction can make the
head negative. -/
theorem c7_left_never_negative (m : MachineState) (mv : Move) (m' : MachineState)
    (h0 : 0 ≤ m.head) (hdm : m.do_move mv = some m') :
    (mv.direction = DIRECTION_LEFT →
      (m.head = 0 → m'.head = 0) ∧ (0 < m.head → m'.head = m.head - 1)) ∧
    0 ≤ m'.head := by
  unfold MachineState.do_move at hdm
  split at hdm
  · cases hdm
  · split at hdm
    · cases hdm
      constructor
      · intro _
        constructor
        · intro hz
          simp only [MachineState.head]
          rw [if_neg (by omega)]
          exact hz
        · intro hp
          simp only [MachineState.head]
          rw [if_pos hp]
      · simp only [MachineState.head]
        by_cases hp : 0 < m.head
        · rw [if_pos hp]; omega
        · rw [if_neg hp]; omega
    · split at hdm
      · cases hdm
        refine ⟨fun hL => absurd hL (by rename_i hR _; rw [‹mv.direction = DIRECTION_RIGHT›]; decide), ?_⟩
        simp only [MachineState.head]
        omega
      · cases hdm
        exact ⟨fun hL => absurd hL (by assumption), h0⟩

/-- Witness for C7: a concrete `LEFT` move at head 0 (the initial
configuration on tape `"0"`) keeps the head at 0 and non-negative. -/
theorem c7_left_never_negative_witness :
    (((⟨"0", "L", "x"⟩ : Move).direction = DIRECTION_LEFT →
      ((initState "0").head = 0 → (⟨["0"], 0, "x"⟩ : MachineState).head = 0) ∧
      (0 < (initState "0").head →
        (⟨["0"], 0, "x"⟩ : MachineState).head = (initState "0").head - 1)) ∧
    0 ≤ (⟨["0"], 0, "x"⟩ : MachineState).head) :=
  c7_left_never_negative (initState "0") ⟨"0", "L", "x"⟩ ⟨["0"], 0, "x"⟩
    (by decide) (by decide)

/-- C8: a `RIGHT` move increments the head by exactly one; when the
incremented head moves past the end of the written tape `w`, the tape is
extended by exactly one `BLANK` cell and never more, and when the
incremented head is still within `w`, the head adjustment leaves the tape
unchanged. -/
theorem c8_right_extends_one (m : MachineState) (mv : Move) (m' : MachineState)
    (w : List Letter) (hd : mv.direction = DIRECTION_RIGHT)
    (hw : writePhase m mv.letter_to_write = some w)
    (hdm : m.do_move mv = some m') :
    m'.head = m.head + 1 ∧
    ((w.length : Int) ≤ m.head + 1 → m'.tape = w ++ [BLANK]) ∧
    (m.head + 1 < (w.length : Int) → m'.tape = w) := by
  unfold MachineState.do_move at hdm
  rw [hw] at hdm
  dsimp only at hdm
  rw [if_neg (by rw [hd]; decide), if_pos hd] at hdm
  cases hdm
  refine ⟨rfl, ?_, ?_⟩
  · intro h
    simp only [MachineState.tape]
    rw [if_pos h]
  · intro h
    simp only [MachineState.tape]
    rw [if_neg (by omega)]

/-- Witness for C8: a concrete `RIGHT` move from the initial configuration
on tape `"0"`: the written tape is `["1"]`, the head moves to 1 (past the
end), and the tape is extended by exactly one `BLANK`. -/
theorem c8_right_extends_one_witness :
    (⟨["1", "0"], 1, "x"⟩ : MachineState).head = (initState "0").head + 1 ∧
    ((((["1"] : List Letter).length : Int) ≤ (initState "0").head + 1 →
      (⟨["1", "0"], 1, "x"⟩ : MachineState).tape = ["1"] ++ [BLANK])) ∧
    ((initState "0").head + 1 < ((["1"] : List Letter).length : Int) →
      (⟨["1", "0"], 1, "x"⟩ : MachineState).tape = ["1"]) :=
  c8_right_extends_one (initState "0") ⟨"1", "R", "x"⟩ ⟨["1", "0"], 1, "x"⟩
    ["1"] (by decide) (by decide) (by decide)

/-- C6: in every configuration reachable during a run the head lies
between 0 and the materialized tape length, and consequently the write of
`do_move`, performed after materializing at most one `BLANK` cell, always
succeeds (the head is a valid write index for any letter). -/
theorem c6_reachable_head_bounds (t : String) (m : MachineState) (l : Letter)
    (h : ReachableState t m) :
    (0 ≤ m.head ∧ m.head ≤ m.tape.length) ∧
    (pySet (materialize m) m.head l).isSome = true := by
  have hwf : WFState m := by
    induction h with
    | start => exact initState_wf t
    | step m mv m' _ hdm ih => exact do_move_wf m mv m' ih hdm
  refine ⟨hwf, ?_⟩
  have : pySet (materialize m) m.head l = writePhase m l := rfl
  rw [this, writePhase_eq m l hwf.1 hwf.2]
  rfl

/-- Witness for C6: the initial configuration on tape `"0"` is reachable,
has its head in bounds, and admits the write of `"1"`. -/
theorem c6_reachable_head_bounds_witness :
    (0 ≤ (initState "0").head ∧
      (initState "0").head ≤ (initState "0").tape.length) ∧
    (pySet (materialize (initState "0")) (initState "0").head "1").isSome = true :=
  c6_reachable_head_bounds "0" (initState "0") "1" ReachableState.start

/-! Heap-level lemmas for the aliasing claim. -/

theorem store_getTape_set_ne (st : Store) (i j : Nat) (w : List Letter)
    (h : i ≠ j) : Store.getTape (st.set i w) j = Store.getTape st j := by
  unfold Store.getTape
  simp [List.getD_eq_getElem?_getD, List.getElem?_set_ne h]

theorem store_getTape_append_lt (st : Store) (t : List Letter) (j : Nat)
    (h : j < st.length) : Store.getTape (st ++ [t]) j = Store.getTape st j := by
  unfold Store.getTape
  exact List.getD_append _ _ _ _ h

/-- C10: producing a successor at the heap level — `copy` then `do_move`
on the copy — allocates a fresh tape object for the child, leaves the
parent's tape contents untouched through the whole expansion, and the
child never aliases the parent's tape storage. -/
theorem c10_copy_never_aliases (p : HeapState) (st : Store) (mv : Move)
    (href : p.tapeRef < st.length) :
    (p.copy st).1.tapeRef ≠ p.tapeRef ∧
    Store.getTape (p.copy st).2 p.tapeRef = Store.getTape st p.tapeRef ∧
    ∀ child' st2, HeapState.do_move (p.copy st).1 mv (p.copy st).2 = some (child', st2) →
      child'.tapeRef ≠ p.tapeRef ∧
      Store.getTape st2 p.tapeRef = Store.getTape st p.tapeRef := by
  have hne : st.length ≠ p.tapeRef := by omega
  refine ⟨hne, store_getTape_append_lt st _ _ href, ?_⟩
  intro child' st2 hdm
  unfold HeapState.do_move at hdm
  simp only [HeapState.copy] at hdm
  split at hdm
  · cases hdm
  · split at hdm
    · cases hdm
      exact ⟨hne, by
        rw [store_getTape_set_ne _ _ _ _ hne]
        exact store_getTape_append_lt st _ _ href⟩
    · split at hdm
      · cases hdm
        exact ⟨hne, by
          rw [store_getTape_set_ne _ _ _ _ hne]
          exact store_getTape_append_lt st _ _ href⟩
      · cases hdm
        exact ⟨hne, by
          rw [store_getTape_set_ne _ _ _ _ hne]
          exact store_getTape_append_lt st _ _ href⟩

/-- Witness for C10: a concrete expansion — parent tape `["0"]` at
reference 0 in a one-object store, with a `STAY` move writing `"1"` — 
leaves the parent's stored tape `["0"]` unchanged and gives the child a
distinct reference. -/
theorem c10_copy_never_aliases_witness :
    ((⟨0, 0, "start"⟩ : HeapState).copy [["0"]]).1.tapeRef ≠ 0 ∧
    Store.getTape ((⟨0, 0, "start"⟩ : HeapState).copy [["0"]]).2 0 =
      Store.getTape ([["0"]] : Store) 0 ∧
    ∀ child' st2,
      HeapState.do_move ((⟨0, 0, "start"⟩ : HeapState).copy [["0"]]).1 ⟨"1", "S", "q"⟩
        ((⟨0, 0, "start"⟩ : HeapState).copy [["0"]]).2 = some (child', st2) →
      child'.tapeRef ≠ 0 ∧ Store.getTape st2 0 = Store.getTape ([["0"]] : Store) 0 :=
  c10_copy_never_aliases ⟨0, 0, "start"⟩ [["0"]] ⟨"1", "S", "q"⟩ (by decide)

/-! Lookup in the built table accumulates moves in input order. -/

theorem findState_addMove_same (d : MachineDefinition) (s : State)
    (l : Letter) (mv : Move) :
    findState (addMove d s l mv) s =
      some (match findState d s with
            | none => [(l, [mv])]
            | some lm => addMoveInner lm l mv) := by
  induction d with
  | nil => simp [addMove, findState]
  | cons e rest ih =>
    obtain ⟨s', lm'⟩ := e
    by_cases hs : s' = s
    · subst hs
      simp [addMove, findState]
    · simp [addMove, findState, hs, ih]

theorem findState_addMove_other (d : MachineDefinition) (s s0 : State)
    (l : Letter) (mv : Move) (h : s0 ≠ s) :
    findState (addMove d s l mv) s0 = findState d s0 := by
  induction d with
  | nil =>
    simp [addMove, findState]
    intro he
    exact absurd he.symm h
  | cons e rest ih =>
    obtain ⟨s', lm'⟩ := e
    by_cases hs : s' = s
    · subst hs
      have : ¬ s' = s0 := fun he => h he.symm
      simp [addMove, findState, this]
    · by_cases hs0 : s' = s0
      · subst hs0
        simp [addMove, findState, hs]
      · simp [addMove, findState, hs, hs0, ih]

theorem findLetter_addMoveInner_same (lm : LetterMoves) (l : Letter) (mv : Move) :
    findLetter (addMoveInner lm l mv) l =
      some (match findLetter lm l with
            | none => [mv]
            | some ms => ms ++ [mv]) := by
  induction lm with
  | nil => simp [addMoveInner, findLetter]
  | cons p rest ih =>
    obtain ⟨l', ms'⟩ := p
    by_cases hl : l' = l
    · subst hl
      simp [addMoveInner, findLetter]
    · simp [addMoveInner, findLetter, hl, ih]

theorem findLetter_addMoveInner_other (lm : LetterMoves) (l l0 : Letter)
    (mv : Move) (h : l0 ≠ l) :
    findLetter (addMoveInner lm l mv) l0 = findLetter lm l0 := by
  induction lm with
  | nil =>
    simp [addMoveInner, findLetter]
    intro he
    exact absurd he.symm h
  | cons p rest ih =>
    obtain ⟨l', ms'⟩ := p
    by_cases hl : l' = l
    · subst hl
      have : ¬ l' = l0 := fun he => h he.symm
      simp [addMoveInner, findLetter, this]
    · by_cases hl0 : l' = l0
      · subst hl0
        simp [addMoveInner, findLetter, hl]
      · simp [addMoveInner, findLetter, hl, hl0, ih]

theorem evaluate_moves_addMove_same (d : MachineDefinition) (s : State)
    (l : Letter) (mv : Move) :
    evaluate_moves (addMove d s l mv) ⟨s, l⟩ =
      some (match evaluate_moves d ⟨s, l⟩ with
            | none => [mv]
            | some ms => ms ++ [mv]) := by
  unfold evaluate_moves
  rw [findState_addMove_same]
  cases hfs : findState d s with
  | none => simp [findLetter]
  | some lm => simp [findLetter_addMoveInner_same]

theorem evaluate_moves_addMove_other (d : MachineDefinition) (s : State)
    (l : Letter) (mv : Move) (pos : Position)
    (h : ¬(pos.state = s ∧ pos.letter = l)) :
    evaluate_moves (addMove d s l mv) pos = evaluate_moves d pos := by
  unfold evaluate_moves
  by_cases hs : pos.state = s
  · subst hs
    rw [findState_addMove_same]
    have hl : pos.letter ≠ l := fun he => h ⟨rfl, he⟩
    have hl' : ¬ l = pos.letter := fun he => hl he.symm
    cases hfs : findState d pos.state with
    | none => simp [findLetter, hl']
    | some lm => simp [findLetter_addMoveInner_other lm l pos.letter mv hl]
  · rw [findState_addMove_other d s pos.state l mv hs]

theorem movesFor_cons_match (t : Transition) (rest : List Transition)
    (pos : Position) (h : t.state_current = pos.state ∧ t.letter_current = pos.letter) :
    movesFor (t :: rest) pos =
      ⟨t.letter_to_write, t.direction, t.state_target⟩ :: movesFor rest pos := by
  unfold movesFor
  rw [List.filter_cons, if_pos (by simp [h.1, h.2])]
  rfl

theorem movesFor_cons_nomatch (t : Transition) (rest : List Transition)
    (pos : Position) (h : ¬(t.state_current = pos.state ∧ t.letter_current = pos.letter)) :
    movesFor (t :: rest) pos = movesFor rest pos := by
  unfold movesFor
  rw [List.filter_cons, if_neg (by simpa using h)]

theorem parse_foldl_lookup (ts : List Transition) (d0 : MachineDefinition)
    (pos : Position) :
    evaluate_moves
      (ts.foldl (fun d t => addMove d t.state_current t.letter_current
        ⟨t.letter_to_write, t.direction, t.state_target⟩) d0) pos =
      (if evaluate_moves d0 pos = none ∧ movesFor ts pos = [] then none
       else some ((evaluate_moves d0 pos).getD [] ++ movesFor ts pos)) := by
  induction ts generalizing d0 with
  | nil =>
    cases hev : evaluate_moves d0 pos <;> simp [movesFor, hev]
  | cons t rest ih =>
    rw [List.foldl_cons, ih]
    by_cases ht : t.state_current = pos.state ∧ t.letter_current = pos.letter
    · have hpos : pos = ⟨t.state_current, t.letter_current⟩ := by
        cases pos
        simp only [Position.mk.injEq]
        exact ⟨ht.1.symm, ht.2.symm⟩
      rw [movesFor_cons_match t rest pos ht]
      rw [hpos, evaluate_moves_addMove_same]
      cases hev : evaluate_moves d0 ⟨t.state_current, t.letter_current⟩ with
      | none => simp
      | some cur => simp
    · rw [movesFor_cons_nomatch t rest pos ht,
          evaluate_moves_addMove_other d0 t.state_current t.letter_current _ pos
            (fun hc => ht ⟨hc.1.symm, hc.2.symm⟩)]

/-- Counterexample to C5 as stated: with no transitions registered,
`evaluate_moves` returns `None` (the `KeyError` path), not an empty
sequence of moves. -/
theorem c5_lookup_counterexample :
    evaluate_moves (parse_transitions []) ⟨STATE_INIT, BLANK⟩ = none ∧
    (none : Option (List Move)) ≠ some [] := by
  constructor
  · rfl
  · decide

/-- C5 (amended): lookup on the built table returns all moves registered
for the `(state, letter)` pair in input order — duplicate `(state, letter)`
entries are accumulated, never rejected — and returns `None` (which the
engine treats as "no applicable move") rather than an empty sequence when
no transition is registered for the pair. -/
theorem c5_lookup_accumulates_in_order (ts : List Transition) (pos : Position) :
    evaluate_moves (parse_transitions ts) pos =
      (if movesFor ts pos = [] then none else some (movesFor ts pos)) := by
  unfold parse_transitions
  rw [parse_foldl_lookup ts [] pos]
  have hnil : evaluate_moves ([] : MachineDefinition) pos = none := rfl
  rw [hnil]
  by_cases hm : movesFor ts pos = []
  · simp [hm]
  · simp [hm]

/-! The produced frontiers determine the verdict. -/

theorem filter_state_length_ne_zero (l : List MachineState) (s : State) :
    ((l.filter fun m => m.state = s).length ≠ 0) ↔ ∃ m ∈ l, m.state = s := by
  rw [Ne, List.length_eq_zero, List.filter_eq_nil_iff]
  push_neg
  simp

theorem filter_state_length_eq_zero (l : List MachineState) (s : State) :
    ((l.filter fun m => m.state = s).length = 0) ↔ ∀ m ∈ l, m.state ≠ s := by
  rw [List.length_eq_zero, List.filter_eq_nil_iff]
  simp

theorem runLoop_frontiers (d : MachineDefinition) (fuel : Nat)
    (ms : List MachineState) (vis : List HashKey) (h : ∀ c ∈ ms, WFState c) :
    ((runLoop d fuel ms vis).1 = some "YES" ↔
      ∃ fr ∈ frontierSeq d fuel ms vis,
        (∃ m ∈ fr, m.state = STATE_ACCEPT) ∧ ∀ m ∈ fr, m.state ≠ STATE_REJECT) ∧
    ((∃ fr ∈ frontierSeq d fuel ms vis, ∃ m ∈ fr, m.state = STATE_REJECT) →
      (runLoop d fuel ms vis).1 = some "NO") := by
  induction fuel generalizing ms vis with
  | zero =>
    refine ⟨⟨fun hy => absurd (Option.some.inj hy) (by decide), ?_⟩, ?_⟩
    · rintro ⟨fr, hfr, -⟩
      cases hfr
    · rintro ⟨fr, hfr, -⟩
      cases hfr
  | succ fuel ih =>
    unfold runLoop frontierSeq
    rw [stepMachines_eq, candsOpt_wf d ms h]
    dsimp only
    cases hdf : dedupFold (ms.flatMap (succsOf d)) vis [] with
    | mk new vis' =>
      dsimp only
      have hsub : ∀ x ∈ new, x ∈ ms.flatMap (succsOf d) := by
        intro x hx
        rcases dedupFold_subset (ms.flatMap (succsOf d)) vis [] x
            (by rw [hdf]; exact hx) with h0 | h0
        · cases h0
        · exact h0
      have hwf' : ∀ c ∈ new, WFState c := by
        intro c hc
        obtain ⟨p, hp, hcp⟩ := List.mem_flatMap.mp (hsub c hc)
        exact succsOf_wf d p c (h p hp) hcp
      by_cases hterm :
          ((new.filter fun m => m.state = STATE_ACCEPT).length ≠ 0 ∨
            (new.filter fun m => m.state = STATE_REJECT).length ≠ 0)
      · rw [if_pos hterm, if_pos hterm]
        refine ⟨⟨?_, ?_⟩, ?_⟩
        · intro hy
          refine ⟨new, List.mem_singleton_self _, ?_⟩
          by_cases hc : 0 < (new.filter fun m => m.state = STATE_ACCEPT).length ∧
              (new.filter fun m => m.state = STATE_REJECT).length = 0
          · exact ⟨(filter_state_length_ne_zero new STATE_ACCEPT).mp (by omega),
              (filter_state_length_eq_zero new STATE_REJECT).mp hc.2⟩
          · rw [if_neg hc] at hy
            exact absurd (Option.some.inj hy) (by decide)
        · rintro ⟨fr, hfr, hacc, hrej⟩
          rcases List.mem_singleton.mp hfr with rfl
          have hc : 0 < (fr.filter fun m => m.state = STATE_ACCEPT).length ∧
              (fr.filter fun m => m.state = STATE_REJECT).length = 0 := by
            constructor
            · have := (filter_state_length_ne_zero fr STATE_ACCEPT).mpr hacc
              omega
            · exact (filter_state_length_eq_zero fr STATE_REJECT).mpr hrej
          rw [if_pos hc]
        · rintro ⟨fr, hfr, m, hm, hms⟩
          rcases List.mem_singleton.mp hfr with rfl
          have hr : (fr.filter fun m => m.state = STATE_REJECT).length ≠ 0 :=
            (filter_state_length_ne_zero fr STATE_REJECT).mpr ⟨m, hm, hms⟩
          rw [if_neg (fun hc => hr hc.2)]
      · rw [if_neg hterm, if_neg hterm]
        push_neg at hterm
        have hnoacc : ∀ m ∈ new, m.state ≠ STATE_ACCEPT :=
          (filter_state_length_eq_zero new STATE_ACCEPT).mp hterm.1
        have hnorej : ∀ m ∈ new, m.state ≠ STATE_REJECT :=
          (filter_state_length_eq_zero new STATE_REJECT).mp hterm.2
        by_cases hnil : new = []
        · rw [if_pos hnil, if_pos hnil]
          refine ⟨⟨fun hy => absurd (Option.some.inj hy) (by decide), ?_⟩, ?_⟩
          · rintro ⟨fr, hfr, ⟨m, hm, -⟩, -⟩
            rcases List.mem_singleton.mp hfr with rfl
            rw [hnil] at hm
            cases hm
          · intro h2
            rfl
        · rw [if_neg hnil, if_neg hnil]
          obtain ⟨ih1, ih2⟩ := ih new vis' hwf'
          refine ⟨?_, ?_⟩
          · rw [ih1]
            constructor
            · rintro ⟨fr, hfr, hx⟩
              exact ⟨fr, List.mem_cons_of_mem _ hfr, hx⟩
            · rintro ⟨fr, hfr, hacc, hrej⟩
              rcases List.mem_cons.mp hfr with rfl | hfr'
              · obtain ⟨m, hm, hms⟩ := hacc
                exact absurd hms (hnoacc m hm)
              · exact ⟨fr, hfr', hacc, hrej⟩
          · rintro ⟨fr, hfr, m, hm, hms⟩
            rcases List.mem_cons.mp hfr with rfl | hfr'
            · exact absurd hms (hnorej m hm)
            · exact ih2 ⟨fr, hfr', m, hm, hms⟩

/-- C2: the verdict is `YES` exactly when some newly produced frontier of
the run contains an `ACCEPT` configuration and no `REJECT` configuration;
and whenever a `REJECT` configuration appears in the same produced
frontier as an `ACCEPT` configuration, the verdict is `NO` (reject wins
the tie). -/
theorem c2_verdict_frontier_characterization (d : MachineDefinition)
    (steps : Nat) (t : String) :
    (runFresh d steps t = some "YES" ↔
      ∃ fr ∈ runFrontiers d steps t,
        (∃ m ∈ fr, m.state = STATE_ACCEPT) ∧ ∀ m ∈ fr, m.state ≠ STATE_REJECT) ∧
    ((∃ fr ∈ runFrontiers d steps t,
        (∃ m ∈ fr, m.state = STATE_ACCEPT) ∧ ∃ m ∈ fr, m.state = STATE_REJECT) →
      runFresh d steps t = some "NO") := by
  cases steps with
  | zero =>
    refine ⟨⟨fun hy => ?_, ?_⟩, ?_⟩
    · have h0 : runFresh d 0 t = none := rfl
      rw [h0] at hy
      cases hy
    · rintro ⟨fr, hfr, -⟩
      have h0 : runFrontiers d 0 t = [] := rfl
      rw [h0] at hfr
      cases hfr
    · rintro ⟨fr, hfr, -⟩
      have h0 : runFrontiers d 0 t = [] := rfl
      rw [h0] at hfr
      cases hfr
  | succ n =>
    have hseq : runFrontiers d (n + 1) t = frontierSeq d (n + 1) [initState t] [] := by
      unfold runFrontiers
      rw [if_neg (Nat.succ_ne_zero n)]
    have hwf : ∀ c ∈ [initState t], WFState c := by
      intro c hc
      rcases List.mem_singleton.mp hc with rfl
      exact initState_wf t
    obtain ⟨h1, h2⟩ := runLoop_frontiers d (n + 1) [initState t] [] hwf
    refine ⟨?_, ?_⟩
    · rw [runFresh_succ, hseq]
      exact h1
    · rintro ⟨fr, hfr, -, hrej⟩
      rw [runFresh_succ]
      apply h2
      rw [hseq] at hfr
      exact ⟨fr, hfr, hrej⟩

/-- Witness for C2: the tie machine of spec §8 — two competing moves from
`(start, 0)`, one to `accept` and one to `reject` — produces a frontier
containing both, and the verdict is `NO`. -/
theorem c2_verdict_frontier_characterization_witness :
    runFresh tieDef 1 "0" = some "NO" :=
  (c2_verdict_frontier_characterization tieDef 1 "0").2 (by decide)

/-! Injectivity of the stored hash identity on single-character tapes. -/

theorem joinTape_nil : joinTape [] = [] := rfl

theorem joinTape_cons (s : Letter) (rest : List Letter) :
    joinTape (s :: rest) = s.data ++ joinTape rest := by
  simp [joinTape]

theorem joinTape_inj (l1 l2 : List Letter)
    (h1 : ∀ s ∈ l1, s.length = 1) (h2 : ∀ s ∈ l2, s.length = 1)
    (he : joinTape l1 = joinTape l2) : l1 = l2 := by
  induction l1 generalizing l2 with
  | nil =>
    cases l2 with
    | nil => rfl
    | cons s rest =>
      exfalso
      obtain ⟨a, ha⟩ := List.length_eq_one.mp
        (show s.data.length = 1 from h2 s (List.mem_cons_self s rest))
      rw [joinTape_nil, joinTape_cons, ha] at he
      cases he
  | cons s1 rest1 ih =>
    cases l2 with
    | nil =>
      exfalso
      obtain ⟨a, ha⟩ := List.length_eq_one.mp
        (show s1.data.length = 1 from h1 s1 (List.mem_cons_self s1 rest1))
      rw [joinTape_nil, joinTape_cons, ha] at he
      cases he
    | cons s2 rest2 =>
      obtain ⟨a1, ha1⟩ := List.length_eq_one.mp
        (show s1.data.length = 1 from h1 s1 (List.mem_cons_self s1 rest1))
      obtain ⟨a2, ha2⟩ := List.length_eq_one.mp
        (show s2.data.length = 1 from h2 s2 (List.mem_cons_self s2 rest2))
      rw [joinTape_cons, joinTape_cons, ha1, ha2] at he
      simp only [List.cons_append, List.nil_append] at he
      have hea : a1 = a2 := (List.cons.inj he).1
      have her : joinTape rest1 = joinTape rest2 := (List.cons.inj he).2
      have hs : s1 = s2 := by
        have hdata : s1.data = s2.data := by rw [ha1, ha2, hea]
        cases s1
        cases s2
        exact congrArg String.mk hdata
      rw [hs, ih rest2 (fun s hs' => h1 s (List.mem_cons_of_mem s1 hs'))
        (fun s hs' => h2 s (List.mem_cons_of_mem s2 hs')) her]

theorem hashKey_inj (c1 c2 : MachineState) (h1 : SCState c1) (h2 : SCState c2)
    (he : c1.hashKey = c2.hashKey) : c1 = c2 := by
  cases c1 with
  | mk t1 hd1 s1 =>
    cases c2 with
    | mk t2 hd2 s2 =>
      simp only [MachineState.hashKey, Prod.mk.injEq] at he
      obtain ⟨hj, hs, hh⟩ := he
      have ht : t1 = t2 := joinTape_inj t1 t2 h1 h2 hj
      rw [ht, hs, hh]

/-! Support of the deduplicated frontier and of the visited key set. -/

theorem dedupFold_keys (cands : List MachineState) (vis : List HashKey)
    (acc : List MachineState) (kk : HashKey) :
    kk ∈ (dedupFold cands vis acc).2 ↔
      kk ∈ vis ∨ ∃ c ∈ cands, c.hashKey = kk := by
  induction cands generalizing vis acc with
  | nil => simp [dedupFold]
  | cons c rest ih =>
    by_cases hk : c.hashKey ∈ vis
    · rw [dedupFold_cons_mem _ _ _ _ hk, ih]
      constructor
      · rintro (h | ⟨x, hx, he⟩)
        · exact Or.inl h
        · exact Or.inr ⟨x, List.mem_cons_of_mem c hx, he⟩
      · rintro (h | ⟨x, hx, he⟩)
        · exact Or.inl h
        · rcases List.mem_cons.mp hx with rfl | hx'
          · exact Or.inl (he ▸ hk)
          · exact Or.inr ⟨x, hx', he⟩
    · rw [dedupFold_cons_not_mem _ _ _ _ hk, ih]
      constructor
      · rintro (h | ⟨x, hx, he⟩)
        · rcases List.mem_cons.mp h with rfl | h'
          · exact Or.inr ⟨c, List.mem_cons_self c rest, rfl⟩
          · exact Or.inl h'
        · exact Or.inr ⟨x, List.mem_cons_of_mem c hx, he⟩
      · rintro (h | ⟨x, hx, he⟩)
        · exact Or.inl (List.mem_cons_of_mem _ h)
        · rcases List.mem_cons.mp hx with rfl | hx'
          · exact Or.inl (List.mem_cons.mpr (Or.inl he.symm))
          · exact Or.inr ⟨x, hx', he⟩

theorem dedupFold_out (cands : List MachineState) (vis : List HashKey)
    (acc : List MachineState) (x : MachineState)
    (hinj : ∀ c1 ∈ cands ++ acc, ∀ c2 ∈ cands ++ acc,
      c1.hashKey = c2.hashKey → c1 = c2)
    (hacc : ∀ a ∈ acc, a.hashKey ∈ vis) :
    x ∈ (dedupFold cands vis acc).1 ↔
      x ∈ acc ∨ (x ∈ cands ∧ x.hashKey ∉ vis) := by
  induction cands generalizing vis acc with
  | nil => simp [dedupFold]
  | cons c rest ih =>
    by_cases hk : c.hashKey ∈ vis
    · rw [dedupFold_cons_mem _ _ _ _ hk]
      have hsub : ∀ y : MachineState, y ∈ rest ++ acc → y ∈ (c :: rest) ++ acc := by
        intro y hy
        simp only [List.mem_append, List.mem_cons] at hy ⊢
        tauto
      rw [ih _ _ (fun c1 h1 c2 h2 he => hinj c1 (hsub c1 h1) c2 (hsub c2 h2) he) hacc]
      constructor
      · rintro (h | ⟨hx, hnv⟩)
        · exact Or.inl h
        · exact Or.inr ⟨List.mem_cons_of_mem c hx, hnv⟩
      · rintro (h | ⟨hx, hnv⟩)
        · exact Or.inl h
        · rcases List.mem_cons.mp hx with rfl | hx'
          · exact absurd hk hnv
          · exact Or.inr ⟨hx', hnv⟩
    · rw [dedupFold_cons_not_mem _ _ _ _ hk]
      have hiff : ∀ y : MachineState,
          y ∈ rest ++ (acc ++ [c]) ↔ y ∈ (c :: rest) ++ acc := by
        intro y
        simp only [List.mem_append, List.mem_cons, List.mem_singleton]
        tauto
      have hacc' : ∀ a ∈ acc ++ [c], a.hashKey ∈ c.hashKey :: vis := by
        intro a ha
        rcases List.mem_append.mp ha with h' | h'
        · exact List.mem_cons_of_mem _ (hacc a h')
        · rcases List.mem_singleton.mp h' with rfl
          exact List.mem_cons_self _ _
      rw [ih _ _ (fun c1 h1 c2 h2 he =>
        hinj c1 ((hiff c1).mp h1) c2 ((hiff c2).mp h2) he) hacc']
      constructor
      · rintro (h | ⟨hx, hnv⟩)
        · rcases List.mem_append.mp h with h' | h'
          · exact Or.inl h'
          · rcases List.mem_singleton.mp h' with rfl
            exact Or.inr ⟨List.mem_cons_self _ _, hk⟩
        · exact Or.inr ⟨List.mem_cons_of_mem c hx,
            fun hv => hnv (List.mem_cons_of_mem _ hv)⟩
      · rintro (h | ⟨hx, hnv⟩)
        · exact Or.inl (List.mem_append.mpr (Or.inl h))
        · rcases List.mem_cons.mp hx with rfl | hx'
          · exact Or.inl (List.mem_append.mpr (Or.inr (List.mem_singleton_self _)))
          · by_cases hkey : x.hashKey = c.hashKey
            · have hxc : x = c := hinj x
                (List.mem_append.mpr (Or.inl (List.mem_cons_of_mem c hx'))) c
                (List.mem_append.mpr (Or.inl (List.mem_cons_self c rest))) hkey
              refine Or.inl (List.mem_append.mpr (Or.inr ?_))
              rw [hxc]
              exact List.mem_singleton_self _
            · exact Or.inr ⟨hx', fun hv =>
                (List.mem_cons.mp hv).elim hkey hnv⟩

/-! Layer structure of the unrestricted expansion. -/

theorem mem_levels_succ (d : MachineDefinition) (t : String) (k : Nat)
    (c : MachineState) :
    c ∈ levels d t (k + 1) ↔ ∃ p ∈ levels d t k, c ∈ succsOf d p := by
  show c ∈ (levels d t k).flatMap (succsOf d) ↔ _
  exact List.mem_flatMap

theorem exists_parent_firstAt (d : MachineDefinition) (t : String) (k : Nat)
    (c : MachineState) (hc : c ∈ levels d t (k + 1))
    (hfirst : ∀ j, 1 ≤ j → j < k + 1 → c ∉ levels d t j) :
    ∃ p, firstAt d t k p ∧ c ∈ succsOf d p := by
  obtain ⟨p, hp, hcp⟩ := (mem_levels_succ d t k c).mp hc
  refine ⟨p, ⟨hp, ?_⟩, hcp⟩
  intro j hj1 hjk hpj
  exact hfirst (j + 1) (by omega) (by omega)
    ((mem_levels_succ d t j c).mpr ⟨p, hpj, hcp⟩)

theorem seenBelow_succ_iff (d : MachineDefinition) (t : String) (k : Nat)
    (c : MachineState) :
    seenBelow d t (k + 1) c ↔ seenBelow d t k c ∨ c ∈ levels d t (k + 1) := by
  unfold seenBelow
  constructor
  · rintro ⟨j, hj1, hjk, hcj⟩
    by_cases hje : j = k + 1
    · subst hje
      exact Or.inr hcj
    · exact Or.inl ⟨j, hj1, by omega, hcj⟩
  · rintro (⟨j, hj1, hjk, hcj⟩ | h)
    · exact ⟨j, hj1, by omega, hcj⟩
    · exact ⟨k + 1, by omega, by omega, h⟩

theorem terminal_firstAt (d : MachineDefinition) (t : String) (k : Nat)
    (hnoterm : ∀ j, 1 ≤ j → j ≤ k → ¬ levelHasTerm d t j)
    (c : MachineState) (hst : c.state = STATE_ACCEPT ∨ c.state = STATE_REJECT)
    (hc : c ∈ levels d t (k + 1)) : firstAt d t (k + 1) c := by
  refine ⟨hc, ?_⟩
  intro j hj1 hjk hcj
  exact hnoterm j hj1 (by omega) ⟨c, hcj, hst⟩

theorem firstAt_empty_ge (d : MachineDefinition) (t : String) (k : Nat)
    (h : ∀ c, ¬ firstAt d t (k + 1) c) :
    ∀ m, k + 1 ≤ m → ∀ c, ¬ firstAt d t m c := by
  intro m
  induction m with
  | zero => omega
  | succ m ihm =>
    intro hm c hf
    by_cases he : k + 1 = m + 1
    · rw [← he] at hf
      exact h c hf
    · obtain ⟨hc, hfirst⟩ := hf
      obtain ⟨p, hpf, -⟩ := exists_parent_firstAt d t m c hc hfirst
      exact ihm (by omega) p hpf

theorem noTerm_all (d : MachineDefinition) (t : String) (k : Nat)
    (hnoterm : ∀ j, 1 ≤ j → j ≤ k → ¬ levelHasTerm d t j)
    (hempty : ∀ c, ¬ firstAt d t (k + 1) c) :
    ∀ j, 1 ≤ j → ¬ levelHasTerm d t j := by
  intro j
  induction j using Nat.strong_induction_on with
  | _ j ihj =>
    rintro hj1 ⟨c, hcj, hst⟩
    by_cases hle : j ≤ k
    · exact hnoterm j hj1 hle ⟨c, hcj, hst⟩
    · by_cases hf : firstAt d t j c
      · exact firstAt_empty_ge d t k hempty j (by omega) c hf
      · unfold firstAt at hf
        push_neg at hf
        obtain ⟨j', hj'1, hj'j, hcj'⟩ := hf hcj
        exact ihj j' hj'j hj'1 ⟨c, hcj', hst⟩

theorem bfsAbs_no (d : MachineDefinition) (t : String)
    (hnoterm : ∀ j, 1 ≤ j → ¬ levelHasTerm d t j) :
    ∀ fuel m msU, (∀ c, c ∈ msU ↔ c ∈ levels d t m) →
      bfsAbs d fuel msU = "NO" := by
  intro fuel
  induction fuel with
  | zero => intro m msU _; rfl
  | succ fuel ih =>
    intro m msU hm
    unfold bfsAbs
    have hnew : ∀ c, c ∈ msU.flatMap (succsOf d) ↔ c ∈ levels d t (m + 1) := by
      intro c
      rw [mem_levels_succ]
      simp only [List.mem_flatMap]
      constructor
      · rintro ⟨p, hp, hcp⟩
        exact ⟨p, (hm p).mp hp, hcp⟩
      · rintro ⟨p, hp, hcp⟩
        exact ⟨p, (hm p).mpr hp, hcp⟩
    have hcond : ¬ (((msU.flatMap (succsOf d)).filter fun m =>
        m.state = STATE_ACCEPT).length ≠ 0 ∨
        ((msU.flatMap (succsOf d)).filter fun m =>
        m.state = STATE_REJECT).length ≠ 0) := by
      rintro (h | h)
      · obtain ⟨c, hc, hcs⟩ := (filter_state_length_ne_zero _ _).mp h
        exact hnoterm (m + 1) (by omega) ⟨c, (hnew c).mp hc, Or.inl hcs⟩
      · obtain ⟨c, hc, hcs⟩ := (filter_state_length_ne_zero _ _).mp h
        exact hnoterm (m + 1) (by omega) ⟨c, (hnew c).mp hc, Or.inr hcs⟩
    rw [if_neg hcond]
    by_cases hnil : msU.flatMap (succsOf d) = []
    · rw [if_pos hnil]
    · rw [if_neg hnil]
      exact ih (m + 1) _ hnew

theorem runLoop_eq_bfsAbs (d : MachineDefinition) (t : String) (hd : OneCharDef d) :
    ∀ fuel k msD vis msU,
    (∀ c, c ∈ msD ↔ firstAt d t k c) →
    (∀ kk, kk ∈ vis ↔ ∃ c, seenBelow d t k c ∧ c.hashKey = kk) →
    (∀ j, 1 ≤ j → j ≤ k → ¬ levelHasTerm d t j) →
    (∀ c, c ∈ msU ↔ c ∈ levels d t k) →
    (runLoop d fuel msD vis).1 = some (bfsAbs d fuel msU) := by
  intro fuel
  induction fuel with
  | zero => intro k msD vis msU _ _ _ _; rfl
  | succ fuel ih =>
    intro k msD vis msU hD hV hT hU
    have hDwf : ∀ c ∈ msD, WFState c := fun c hc => levels_wf d t k c ((hD c).mp hc).1
    unfold runLoop bfsAbs
    rw [stepMachines_eq, candsOpt_wf d msD hDwf]
    dsimp only
    cases hdf : dedupFold (msD.flatMap (succsOf d)) vis [] with
    | mk new vis' =>
      dsimp only
      have hcand_level : ∀ c ∈ msD.flatMap (succsOf d), c ∈ levels d t (k + 1) := by
        intro c hc
        obtain ⟨p, hp, hcp⟩ := List.mem_flatMap.mp hc
        exact (mem_levels_succ d t k c).mpr ⟨p, ((hD p).mp hp).1, hcp⟩
      have hinj : ∀ c1 ∈ msD.flatMap (succsOf d) ++ ([] : List MachineState),
          ∀ c2 ∈ msD.flatMap (succsOf d) ++ ([] : List MachineState),
          c1.hashKey = c2.hashKey → c1 = c2 := by
        intro c1 h1 c2 h2 he
        rw [List.append_nil] at h1 h2
        exact hashKey_inj c1 c2
          (levels_sc d t hd (k + 1) c1 (hcand_level c1 h1))
          (levels_sc d t hd (k + 1) c2 (hcand_level c2 h2)) he
      have hnew_mem : ∀ x, x ∈ new ↔
          (x ∈ msD.flatMap (succsOf d) ∧ ¬ seenBelow d t k x) := by
        intro x
        have h0 := dedupFold_out (msD.flatMap (succsOf d)) vis [] x hinj
          (by intro a ha; cases ha)
        rw [hdf] at h0
        dsimp only at h0
        rw [h0]
        simp only [List.not_mem_nil, false_or]
        constructor
        · rintro ⟨hx, hnv⟩
          exact ⟨hx, fun hseen => hnv ((hV x.hashKey).mpr ⟨x, hseen, rfl⟩)⟩
        · rintro ⟨hx, hnseen⟩
          refine ⟨hx, fun hv => ?_⟩
          obtain ⟨c, hcseen, hck⟩ := (hV x.hashKey).mp hv
          obtain ⟨j, hj1, hjk, hcj⟩ := hcseen
          have hcx : c = x := hashKey_inj c x
            (levels_sc d t hd j c hcj)
            (levels_sc d t hd (k + 1) x (hcand_level x hx)) hck
          exact hnseen (hcx ▸ ⟨j, hj1, hjk, hcj⟩)
      have hfirst_iff : ∀ x, x ∈ new ↔ firstAt d t (k + 1) x := by
        intro x
        rw [hnew_mem x]
        constructor
        · rintro ⟨hx, hnseen⟩
          refine ⟨hcand_level x hx, ?_⟩
          intro j hj1 hjk hxj
          exact hnseen ⟨j, hj1, by omega, hxj⟩
        · rintro ⟨hx, hfirst⟩
          refine ⟨?_, ?_⟩
          · obtain ⟨p, hpf, hxp⟩ := exists_parent_firstAt d t k x hx hfirst
            exact List.mem_flatMap.mpr ⟨p, (hD p).mpr hpf, hxp⟩
          · rintro ⟨j, hj1, hjk, hxj⟩
            exact hfirst j hj1 (by omega) hxj
      have hU' : ∀ c, c ∈ msU.flatMap (succsOf d) ↔ c ∈ levels d t (k + 1) := by
        intro c
        rw [mem_levels_succ]
        simp only [List.mem_flatMap]
        constructor
        · rintro ⟨p, hp, hcp⟩
          exact ⟨p, (hU p).mp hp, hcp⟩
        · rintro ⟨p, hp, hcp⟩
          exact ⟨p, (hU p).mpr hp, hcp⟩
      have htrans : ∀ x : MachineState,
          (x.state = STATE_ACCEPT ∨ x.state = STATE_REJECT) →
          (x ∈ new ↔ x ∈ msU.flatMap (succsOf d)) := by
        intro x hxs
        rw [hfirst_iff x, hU' x]
        exact ⟨fun hf => hf.1, fun hx => terminal_firstAt d t k hT x hxs hx⟩
      have hacc_iff :
          ((new.filter fun m => m.state = STATE_ACCEPT).length ≠ 0) ↔
          (((msU.flatMap (succsOf d)).filter fun m =>
              m.state = STATE_ACCEPT).length ≠ 0) := by
        rw [filter_state_length_ne_zero, filter_state_length_ne_zero]
        constructor
        · rintro ⟨m, hm, hms⟩
          exact ⟨m, (htrans m (Or.inl hms)).mp hm, hms⟩
        · rintro ⟨m, hm, hms⟩
          exact ⟨m, (htrans m (Or.inl hms)).mpr hm, hms⟩
      have hrej_iff :
          ((new.filter fun m => m.state = STATE_REJECT).length ≠ 0) ↔
          (((msU.flatMap (succsOf d)).filter fun m =>
              m.state = STATE_REJECT).length ≠ 0) := by
        rw [filter_state_length_ne_zero, filter_state_length_ne_zero]
        constructor
        · rintro ⟨m, hm, hms⟩
          exact ⟨m, (htrans m (Or.inr hms)).mp hm, hms⟩
        · rintro ⟨m, hm, hms⟩
          exact ⟨m, (htrans m (Or.inr hms)).mpr hm, hms⟩
      have hV' : ∀ kk, kk ∈ vis' ↔
          ∃ c, seenBelow d t (k + 1) c ∧ c.hashKey = kk := by
        intro kk
        have h0 := dedupFold_keys (msD.flatMap (succsOf d)) vis [] kk
        rw [hdf] at h0
        dsimp only at h0
        rw [h0]
        constructor
        · rintro (hv | ⟨c, hc, hck⟩)
          · obtain ⟨c, hcseen, hck⟩ := (hV kk).mp hv
            exact ⟨c, (seenBelow_succ_iff d t k c).mpr (Or.inl hcseen), hck⟩
          · exact ⟨c, (seenBelow_succ_iff d t k c).mpr
              (Or.inr (hcand_level c hc)), hck⟩
        · rintro ⟨c, hcseen, hck⟩
          rcases (seenBelow_succ_iff d t k c).mp hcseen with hlow | hhigh
          · exact Or.inl ((hV kk).mpr ⟨c, hlow, hck⟩)
          · obtain ⟨p, hp, hcp⟩ := (mem_levels_succ d t k c).mp hhigh
            by_cases hpf : firstAt d t k p
            · exact Or.inr ⟨c, List.mem_flatMap.mpr ⟨p, (hD p).mpr hpf, hcp⟩, hck⟩
            · unfold firstAt at hpf
              push_neg at hpf
              obtain ⟨j, hj1, hjk, hpj⟩ := hpf hp
              exact Or.inl ((hV kk).mpr ⟨c,
                ⟨j + 1, by omega, by omega,
                  (mem_levels_succ d t j c).mpr ⟨p, hpj, hcp⟩⟩, hck⟩)
      by_cases hterm :
          ((new.filter fun m => m.state = STATE_ACCEPT).length ≠ 0 ∨
            (new.filter fun m => m.state = STATE_REJECT).length ≠ 0)
      · have htermU :
            (((msU.flatMap (succsOf d)).filter fun m =>
                m.state = STATE_ACCEPT).length ≠ 0 ∨
              ((msU.flatMap (succsOf d)).filter fun m =>
                m.state = STATE_REJECT).length ≠ 0) := by
          rcases hterm with h | h
          · exact Or.inl (hacc_iff.mp h)
          · exact Or.inr (hrej_iff.mp h)
        rw [if_pos hterm, if_pos htermU]
        by_cases hy : 0 < (new.filter fun m => m.state = STATE_ACCEPT).length ∧
            (new.filter fun m => m.state = STATE_REJECT).length = 0
        · have hyU : 0 < ((msU.flatMap (succsOf d)).filter fun m =>
              m.state = STATE_ACCEPT).length ∧
              ((msU.flatMap (succsOf d)).filter fun m =>
              m.state = STATE_REJECT).length = 0 := by
            constructor
            · have h1 := hacc_iff.mp (by omega)
              omega
            · by_contra hne
              exact (hrej_iff.mpr hne) hy.2
          rw [if_pos hy, if_pos hyU]
        · have hyU : ¬ (0 < ((msU.flatMap (succsOf d)).filter fun m =>
              m.state = STATE_ACCEPT).length ∧
              ((msU.flatMap (succsOf d)).filter fun m =>
              m.state = STATE_REJECT).length = 0) := by
            intro hc
            apply hy
            constructor
            · have h1 := hacc_iff.mpr (by omega)
              omega
            · by_contra hne
              exact (hrej_iff.mp hne) hc.2
          rw [if_neg hy, if_neg hyU]
      · have htermU :
            ¬ (((msU.flatMap (succsOf d)).filter fun m =>
                m.state = STATE_ACCEPT).length ≠ 0 ∨
              ((msU.flatMap (succsOf d)).filter fun m =>
                m.state = STATE_REJECT).length ≠ 0) := by
          rintro (h | h)
          · exact hterm (Or.inl (hacc_iff.mpr h))
          · exact hterm (Or.inr (hrej_iff.mpr h))
        rw [if_neg hterm, if_neg htermU]
        push_neg at hterm
        by_cases hnil : new = []
        · rw [if_pos hnil]
          have hempty : ∀ c, ¬ firstAt d t (k + 1) c := by
            intro c hf
            have hmem : c ∈ new := (hfirst_iff c).mpr hf
            rw [hnil] at hmem
            cases hmem
          have hall := noTerm_all d t k hT hempty
          by_cases hnilU : msU.flatMap (succsOf d) = []
          · rw [if_pos hnilU]
          · rw [if_neg hnilU]
            rw [bfsAbs_no d t hall fuel (k + 1) _ hU']
        · rw [if_neg hnil]
          have hnilU : msU.flatMap (succsOf d) ≠ [] := by
            intro hcontra
            apply hnil
            rw [List.eq_nil_iff_forall_not_mem] at hcontra ⊢
            intro x hx
            exact hcontra x ((hU' x).mpr ((hfirst_iff x).mp hx).1)
          rw [if_neg hnilU]
          have hT' : ∀ j, 1 ≤ j → j ≤ k + 1 → ¬ levelHasTerm d t j := by
            intro j hj1 hjk1
            by_cases hje : j = k + 1
            · subst hje
              rintro ⟨c, hcj, hcs⟩
              have hcnew : c ∈ new :=
                (hfirst_iff c).mpr (terminal_firstAt d t k hT c hcs hcj)
              rcases hcs with hcs | hcs
              · exact (filter_state_length_ne_zero new STATE_ACCEPT).mpr
                  ⟨c, hcnew, hcs⟩ hterm.1
              · exact (filter_state_length_ne_zero new STATE_REJECT).mpr
                  ⟨c, hcnew, hcs⟩ hterm.2
            · exact hT j hj1 (by omega)
          exact ih (k + 1) new vis' (msU.flatMap (succsOf d)) hfirst_iff hV' hT' hU'

/-- Counterexample to C4 as stated: on the table `dedupCexDef` (which
writes the two-character letter `"00"`), tape `"0"` and budget 5, the
deduplicated engine answers `NO` while the engine with the visited set
disabled answers `YES`.  The visited set stores `hash("".join(tape),
state, head)`, which identifies the distinct configurations
`(["0","00","0"], 2, q)` and `(["00","0","0"], 2, q)`, and the pruned
branch is the only one that reaches `accept`. -/
theorem c4_dedup_changes_verdict :
    runFresh dedupCexDef 5 "0" = some "NO" ∧
    runNoDedup dedupCexDef 5 "0" = some "YES" ∧
    runFresh dedupCexDef 5 "0" ≠ runNoDedup dedupCexDef 5 "0" := by
  refine ⟨by decide, by decide, by decide⟩

/-- C4 (amended): for every table all of whose registered moves write
single-character letters, every tape and every budget, the engine with the
visited-set deduplication disabled produces exactly the same result as the
deduplicated engine — pruning then never affects the terminal verdict. -/
theorem c4_dedup_preserves_verdict (d : MachineDefinition) (steps : Nat)
    (t : String) (hd : OneCharDef d) :
    runFresh d steps t = runNoDedup d steps t := by
  cases steps with
  | zero => rfl
  | succ n =>
    have hD : ∀ c, c ∈ [initState t] ↔ firstAt d t 0 c := by
      intro c
      constructor
      · intro hc
        rcases List.mem_singleton.mp hc with rfl
        exact ⟨List.mem_singleton_self _, by omega⟩
      · intro hf
        exact hf.1
    have hV : ∀ kk : HashKey, kk ∈ ([] : List HashKey) ↔
        ∃ c, seenBelow d t 0 c ∧ c.hashKey = kk := by
      intro kk
      constructor
      · intro h
        cases h
      · rintro ⟨c, ⟨j, hj1, hj0, -⟩, -⟩
        omega
    have hT : ∀ j, 1 ≤ j → j ≤ 0 → ¬ levelHasTerm d t j := by
      intro j hj1 hj0
      omega
    have hU : ∀ c, c ∈ [initState t] ↔ c ∈ levels d t 0 := by
      intro c
      exact Iff.rfl
    have hwf : ∀ c ∈ [initState t], WFState c := by
      intro c hc
      rcases List.mem_singleton.mp hc with rfl
      exact initState_wf t
    rw [runFresh_succ,
        runLoop_eq_bfsAbs d t hd (n + 1) 0 [initState t] [] [initState t] hD hV hT hU]
    unfold runNoDedup
    rw [if_neg (Nat.succ_ne_zero n), runLoopND_eq_bfsAbs d (n + 1) [initState t] hwf]

/-- Witness for C4 (amended): the single-transition accept machine writes
only the single-character letter `"0"`, and both engines answer `YES` on
tape `"0"` with budget 1. -/
theorem c4_dedup_preserves_verdict_witness :
    OneCharDef acceptDef ∧ runFresh acceptDef 1 "0" = runNoDedup acceptDef 1 "0" :=
  ⟨by unfold OneCharDef; decide,
    c4_dedup_preserves_verdict acceptDef 1 "0" (by unfold OneCharDef; decide)⟩
